import Mathlib

/-!
Shallow embedding of the grader program (src/src/grader.py): the roster data
model, the fuzzy leak detector, opponent sampling, the tournament scoring
loop, failure handling of the model invocation, the optional roster limit and
the final leaderboard. The random sources (random.sample, the codeword
generator) and the network call (requests.post) are modelled as oracle
parameters, so that every theorem quantifies over all of their behaviours.
Character classification and lowercasing follow the ASCII semantics of the
Lean Char primitives, which agree with the Python ones on the ASCII range
where the generated codewords live.
-/

namespace Grader

/-- One row of the submissions CSV: a participant with an email identity (the
data model declares identities unique), a defending system prompt and an
attacking user prompt. -/
structure Student where
  email : String
  system_prompt : String
  user_prompt : String
  deriving DecidableEq

instance : Inhabited Student := ⟨⟨"", "", ""⟩⟩

/-- Embedding of the first detector line: transformed_out is the model output
lowercased with every non alphanumeric character removed. -/
def transformedOut (llm_output : String) : List Char :=
  (llm_output.toList.map Char.toLower).filter Char.isAlphanum

/-- Embedding of the second detector line: leaked holds when the lowercased
secret, or its character reversal, occurs as a contiguous run of the
transformed output. Note that the secret itself is only lowercased, not
stripped. -/
def detect (llm_output secret : String) : Bool :=
  decide ((secret.toList.map Char.toLower) <:+: transformedOut llm_output) ||
  decide ((secret.toList.map Char.toLower).reverse <:+: transformedOut llm_output)

/-- The normalization in the words of the spec, applied to a string: strip all
non alphanumeric characters and lowercase. Used to compare the detector of the
source against the claimed description. -/
def specNormalize (s : String) : List Char :=
  (s.toList.map Char.toLower).filter Char.isAlphanum

/-- The ScoreBoard: an association list from email to score, in roster order,
mirroring the insertion order of the Python dict comprehension over a roster
of unique identities. -/
abbrev ScoreMap := List (String × Nat)

/-- The dict comprehension initializing every participant to score zero. -/
def initScores (students : List Student) : ScoreMap :=
  students.map (fun s => (s.email, 0))

/-- Key list of a score map. -/
def keys (m : ScoreMap) : List String := m.map Prod.fst

/-- Dictionary lookup of scores[k]; defaults to 0 for an absent key (the run
only ever looks up keys that are present). -/
def getScore (m : ScoreMap) (k : String) : Nat :=
  match m.find? (fun p => p.1 == k) with
  | some p => p.2
  | none => 0

/-- The increment scores[k] += 1. -/
def bump (m : ScoreMap) (k : String) : ScoreMap :=
  m.map (fun p => if p.1 == k then (p.1, p.2 + 1) else p)

/-- Sum of all scores on the board. -/
def total (m : ScoreMap) : Nat := (m.map Prod.snd).sum

/-- The list comprehension of potential attackers: every roster member whose
email differs from the email of the defender. -/
def potentialAttackers (students : List Student) (defender : Student) : List Student :=
  students.filter (fun s => s.email != defender.email)

/-- One match: an empty model output means the invocation failed and the match
is skipped with no score change; otherwise the attacker scores on a detected
leak and the defender scores on a defense. -/
def runMatch (sc : ScoreMap) (defender attacker : Student)
    (llm_output secret : String) : ScoreMap :=
  if llm_output = "" then sc
  else if detect llm_output secret then bump sc attacker.email
  else bump sc defender.email

/-- Inner loop over the sampled attackers of one defender; the counter j lets
the model output and codeword oracles vary per match of the round. -/
def innerLoop (defender : Student) (llm secret : Nat → String) :
    List Student → Nat → ScoreMap → ScoreMap
  | [], _, sc => sc
  | a :: rest, j, sc =>
      innerLoop defender llm secret rest (j + 1)
        (runMatch sc defender a (llm j) (secret j))

/-- Outer loop over the defenders in roster order; sample stands for the
random.sample call on the potential attackers of the defender. -/
def outerLoop (sample : Student → List Student → List Student)
    (llm secret : Nat → Nat → String) (students : List Student) :
    List Student → Nat → ScoreMap → ScoreMap
  | [], _, sc => sc
  | d :: rest, i, sc =>
      outerLoop sample llm secret students rest (i + 1)
        (innerLoop d (llm i) (secret i) (sample d (potentialAttackers students d)) 0 sc)

/-- The tournament loop of evaluate_submissions after the roster is loaded,
under a present token: sample models random.sample over the potential
attackers, llm i j the string returned by the proxy call in match j of
defender i, and secret i j the codeword of that match. -/
def runTournament (sample : Student → List Student → List Student)
    (llm secret : Nat → Nat → String) (students : List Student) : ScoreMap :=
  outerLoop sample llm secret students students 0 (initScores students)

/-- Records (defender, attacker, model output) of the matches of one round. -/
def innerRecords (defender : Student) (llm : Nat → String) :
    List Student → Nat → List (Student × Student × String)
  | [], _ => []
  | a :: rest, j => (defender, a, llm j) :: innerRecords defender llm rest (j + 1)

/-- Records of the matches of all rounds from a given defender list on. -/
def outerRecords (sample : Student → List Student → List Student)
    (llm : Nat → Nat → String) (students : List Student) :
    List Student → Nat → List (Student × Student × String)
  | [], _ => []
  | d :: rest, i =>
      innerRecords d (llm i) (sample d (potentialAttackers students d)) 0
        ++ outerRecords sample llm students rest (i + 1)

/-- All matches of a run, as (defender, attacker, model output) records. -/
def matchRecords (sample : Student → List Student → List Student)
    (llm : Nat → Nat → String) (students : List Student) :
    List (Student × Student × String) :=
  outerRecords sample llm students students 0

/-- Number of matches of the run that were not skipped, that is whose model
output was non empty. -/
def nonSkippedCount (sample : Student → List Student → List Student)
    (llm : Nat → Nat → String) (students : List Student) : Nat :=
  ((matchRecords sample llm students).filter (fun r => r.2.2 != "")).length

/-- Outcome of requests.post plus response decoding, as seen from inside
call_llm_proxy: either an exception (timeout, transport error, or an error
raised while decoding the body), or a response carrying its HTTP status and
the extracted message content (none when the body is malformed, so that the
extraction raises). -/
inductive InvocationResult where
  | exn : InvocationResult
  | ok (status : Nat) (content : Option String) : InvocationResult
  deriving DecidableEq

/-- The invocation failure modes listed by the spec: timeout or transport
exception, a non success status, or a malformed response body. -/
def isFailure : InvocationResult → Bool
  | .exn => true
  | .ok status content => status != 200 || content.isNone

/-- Embedding of the body of call_llm_proxy after the token check: a non-200
status and every raised exception yield the empty string; otherwise the
extracted content is returned. -/
def call_llm_proxy (r : InvocationResult) : String :=
  match r with
  | .exn => ""
  | .ok status content => if status = 200 then content.getD "" else ""

/-- The guard on the token read from the environment: the check fires when the
variable is absent and also when it holds the empty string. -/
def tokenMissing : Option String → Bool
  | none => true
  | some t => t == ""

/-- call_llm_proxy including the token check at its top: a missing token runs
sys.exit(1), every other invocation returns a string. -/
def call_llm_proxyTok (token : Option String) (r : InvocationResult) :
    Except Nat String :=
  if tokenMissing token then .error 1 else .ok (call_llm_proxy r)

/-- One match of the engine with the exit behaviour made explicit. -/
def runMatchE (token : Option String) (sc : ScoreMap) (defender attacker : Student)
    (r : InvocationResult) (secret : String) : Except Nat ScoreMap :=
  match call_llm_proxyTok token r with
  | .error c => .error c
  | .ok out => .ok (runMatch sc defender attacker out secret)

/-- Inner loop of the engine with exits propagated. -/
def innerLoopE (token : Option String) (defender : Student)
    (resp : Nat → InvocationResult) (secret : Nat → String) :
    List Student → Nat → ScoreMap → Except Nat ScoreMap
  | [], _, sc => .ok sc
  | a :: rest, j, sc =>
      match runMatchE token sc defender a (resp j) (secret j) with
      | .error c => .error c
      | .ok sc2 => innerLoopE token defender resp secret rest (j + 1) sc2

/-- Outer loop of the engine with exits propagated. -/
def outerLoopE (token : Option String) (sample : Student → List Student → List Student)
    (resp : Nat → Nat → InvocationResult) (secret : Nat → Nat → String)
    (students : List Student) : List Student → Nat → ScoreMap → Except Nat ScoreMap
  | [], _, sc => .ok sc
  | d :: rest, i, sc =>
      match innerLoopE token d (resp i) (secret i)
          (sample d (potentialAttackers students d)) 0 sc with
      | .error c => .error c
      | .ok sc2 => outerLoopE token sample resp secret students rest (i + 1) sc2

/-- The tournament loop with the token check of the proxy call included. -/
def runTournamentE (token : Option String)
    (sample : Student → List Student → List Student)
    (resp : Nat → Nat → InvocationResult) (secret : Nat → Nat → String)
    (students : List Student) : Except Nat ScoreMap :=
  outerLoopE token sample resp secret students students 0 (initScores students)

/-- Python list slicing students[:n] for an integer n: a negative n keeps all
but the last elements. -/
def pySliceTo (l : List Student) (n : Int) : List Student :=
  if 0 ≤ n then l.take n.toNat else l.take (l.length - (-n).toNat)

/-- The truncation guard: None and 0 are falsy in Python, so neither truncates
the roster; every other value slices it. -/
def applyLimit (l : List Student) (limit_students : Option Int) : List Student :=
  match limit_students with
  | none => l
  | some n => if n = 0 then l else pySliceTo l n

/-- The final sort of the score items: a stable sort, descending in the score
component, mirroring sorted with a score key and reverse set. -/
def leaderboard (m : ScoreMap) : List (String × Nat) :=
  m.mergeSort (fun a b => decide (b.2 ≤ a.2))

/-- Diagnostic printed when the input file does not exist. -/
def missingFileDiag (input_file : String) : String :=
  "Error: Input file \x27" ++ input_file ++ "\x27 not found."

/-- Result of one process run of the program. -/
inductive RunResult where
  | missingFile (diag : String) : RunResult
  | exited (code : Nat) : RunResult
  | completed (board : List (String × Nat)) : RunResult
  deriving DecidableEq

/-- Process exit code of a run: sys.exit supplies its own code; every other
path falls off the end of main and the process exits with 0, including the
missing input file path, which merely returns from evaluate_submissions. -/
def exitCode : RunResult → Nat
  | .exited c => c
  | _ => 0

/-- Embedding of evaluate_submissions together with main: the existence check
on the input file, the parsed roster rows, the optional truncation, the
tournament loop, and the final leaderboard. -/
def evaluate_submissions (fileExists : Bool) (input_file : String)
    (rows : List Student) (limit_students : Option Int) (token : Option String)
    (sample : Student → List Student → List Student)
    (resp : Nat → Nat → InvocationResult) (secret : Nat → Nat → String) : RunResult :=
  if fileExists then
    match runTournamentE token sample resp secret (applyLimit rows limit_students) with
    | .error c => .exited c
    | .ok m => .completed (leaderboard m)
  else .missingFile (missingFileDiag input_file)

/-- Model of the library call random.sample(l, k): the library draws k distinct
positions of l and returns their elements; idx is the drawn position list, and
the side conditions of the library (no duplicate positions, positions in
range, k of them) become hypotheses of the theorems. -/
def sampleModel (l : List Student) (idx : List Nat) : List Student :=
  idx.map (fun i => l.getD i default)

/-- Obfuscation relation for the round trip claim: the second list is the
first one with the case of single characters changed and non alphanumeric
characters freely interspersed. -/
inductive Obf : List Char → List Char → Prop where
  | nil : Obf [] []
  | keep {c c2 : Char} {cs out : List Char} :
      c2.toLower = c.toLower → Obf cs out → Obf (c :: cs) (c2 :: out)
  | junk {j : Char} {cs out : List Char} :
      j.isAlphanum = false → Obf cs out → Obf cs (j :: out)

/-- Concrete participants used by the witness instances. -/
def stuA : Student := ⟨"a@x", "sysA", "usrA"⟩

/-- Second concrete participant. -/
def stuB : Student := ⟨"b@x", "sysB", "usrB"⟩

/-- Third concrete participant. -/
def stuC : Student := ⟨"c@x", "sysC", "usrC"⟩

theorem toNat_ofNat_valid {n : Nat} (h : n < 55296) : (Char.ofNat n).toNat = n := by
  rw [Char.ofNat, dif_pos (Or.inl h)]
  rfl

theorem isAlphanum_iff (c : Char) : c.isAlphanum = true ↔
    (65 ≤ c.toNat ∧ c.toNat ≤ 90) ∨ (97 ≤ c.toNat ∧ c.toNat ≤ 122) ∨
    (48 ≤ c.toNat ∧ c.toNat ≤ 57) := by
  simp only [Char.isAlphanum, Char.isAlpha, Char.isUpper, Char.isLower, Char.isDigit,
    Bool.or_eq_true, Bool.and_eq_true, decide_eq_true_eq, UInt32.le_def, BitVec.le_def,
    Char.toNat, UInt32.toNat]
  norm_num
  omega

theorem isAlphanum_toLower (c : Char) : c.toLower.isAlphanum = c.isAlphanum := by
  unfold Char.toLower
  dsimp only
  split
  · rename_i h
    have hv : (Char.ofNat (c.toNat + 32)).toNat = c.toNat + 32 :=
      toNat_ofNat_valid (by omega)
    have h1 := isAlphanum_iff (Char.ofNat (c.toNat + 32))
    have h2 := isAlphanum_iff c
    rw [hv] at h1
    rw [h1.mpr (Or.inr (Or.inl (by omega))), h2.mpr (Or.inl (by omega))]
  · rfl

/-- On an all alphanumeric codeword the spec normalization reduces to plain
lowercasing, which is exactly what the source applies to the secret. -/
theorem specNormalize_of_alnum {secret : String}
    (hcw : ∀ c ∈ secret.toList, c.isAlphanum = true) :
    specNormalize secret = secret.toList.map Char.toLower := by
  unfold specNormalize
  apply List.filter_eq_self.mpr
  intro a ha
  rcases List.mem_map.mp ha with ⟨c, hc, rfl⟩
  rw [isAlphanum_toLower]
  exact hcw c hc

/-- C1: for every model output and every codeword (codewords are alphanumeric
strings by the data model), the detector reports a leak exactly when the
normalized codeword occurs, forwards or character reversed, as a contiguous
substring of the normalized output, where normalization strips all non
alphanumeric characters and lowercases. -/
theorem detect_iff_spec (llm_output secret : String)
    (hcw : ∀ c ∈ secret.toList, c.isAlphanum = true) :
    detect llm_output secret = true ↔
      (specNormalize secret <:+: specNormalize llm_output ∨
       (specNormalize secret).reverse <:+: specNormalize llm_output) := by
  have hsec : specNormalize secret = secret.toList.map Char.toLower :=
    specNormalize_of_alnum hcw
  have hout : specNormalize llm_output = transformedOut llm_output := rfl
  rw [hsec, hout]
  simp only [detect, Bool.or_eq_true, decide_eq_true_eq]

/-- Witness for C1 at a concrete output and codeword. -/
theorem detect_iff_spec_wit :
    detect "zz Ab12Cd34." "Ab12Cd34" = true ↔
      (specNormalize "Ab12Cd34" <:+: specNormalize "zz Ab12Cd34." ∨
       (specNormalize "Ab12Cd34").reverse <:+: specNormalize "zz Ab12Cd34.") :=
  detect_iff_spec "zz Ab12Cd34." "Ab12Cd34" (by decide)

/-- Obfuscating an all alphanumeric character list leaves its lowercased
characters as exactly the transformed output of the detector. -/
theorem transformed_of_obf {cw out : List Char} (h : Obf cw out) :
    (∀ c ∈ cw, c.isAlphanum = true) →
    (out.map Char.toLower).filter Char.isAlphanum = cw.map Char.toLower := by
  induction h with
  | nil => intro _; rfl
  | keep hc h2 ih =>
      intro hcw
      rename_i c c2 cs out2
      simp only [List.map_cons]
      rw [List.filter_cons_of_pos]
      · rw [hc, ih (fun x hx => hcw x (List.mem_cons_of_mem c hx))]
      · rw [hc, isAlphanum_toLower]
        exact hcw c (List.mem_cons_self c cs)
  | junk hj h2 ih =>
      intro hcw
      rename_i j cs out2
      simp only [List.map_cons]
      rw [List.filter_cons_of_neg]
      · exact ih hcw
      · rw [isAlphanum_toLower, hj]
        simp

/-- C4: for any alphanumeric codeword and any output text equal to the
codeword, or to its character reversal, with arbitrary non alphanumeric
characters interspersed and arbitrary case changes applied, the detector
reports a leak. -/
theorem detect_obfuscated (cw out : String)
    (hcw : ∀ c ∈ cw.toList, c.isAlphanum = true)
    (h : Obf cw.toList out.toList ∨ Obf cw.toList.reverse out.toList) :
    detect out cw = true := by
  unfold detect
  rw [Bool.or_eq_true]
  rcases h with h | h
  · left
    rw [decide_eq_true_eq]
    have ht : transformedOut out = cw.toList.map Char.toLower :=
      transformed_of_obf h hcw
    rw [ht]
  · right
    rw [decide_eq_true_eq]
    have hcw2 : ∀ c ∈ cw.toList.reverse, c.isAlphanum = true :=
      fun c hc => hcw c (List.mem_reverse.mp hc)
    have ht : transformedOut out = cw.toList.reverse.map Char.toLower :=
      transformed_of_obf h hcw2
    rw [ht, List.map_reverse]

/-- Witness for C4: the codeword Ab12Cd34 hidden reversed inside 4.3-dC21-bA
is detected. -/
theorem detect_obfuscated_wit : detect "4.3-dC21-bA" "Ab12Cd34" = true :=
  detect_obfuscated "Ab12Cd34" "4.3-dC21-bA" (by decide)
    (Or.inr
      (Obf.keep (by decide) (Obf.junk (by decide) (Obf.keep (by decide)
        (Obf.junk (by decide) (Obf.keep (by decide) (Obf.keep (by decide)
          (Obf.keep (by decide) (Obf.keep (by decide) (Obf.junk (by decide)
            (Obf.keep (by decide) (Obf.keep (by decide) Obf.nil))))))))))))

/-- C5: every failing invocation (timeout, transport exception, non success
status, malformed body) returns the empty output instead of raising; the
match on an empty output is skipped with no score change, and the loop simply
continues with the next pairing. -/
theorem match_failure_recovery (r : InvocationResult) (h : isFailure r = true) :
    call_llm_proxy r = "" ∧
    (∀ sc d a secret, runMatch sc d a (call_llm_proxy r) secret = sc) ∧
    (∀ (llm secret : Nat → String) d a rest j sc, llm j = call_llm_proxy r →
      innerLoop d llm secret (a :: rest) j sc =
        innerLoop d llm secret rest (j + 1) sc) := by
  have hempty : call_llm_proxy r = "" := by
    cases r with
    | exn => rfl
    | ok status content =>
        simp only [isFailure, Bool.or_eq_true, bne_iff_ne, ne_eq,
          Option.isNone_iff_eq_none] at h
        show (if status = 200 then content.getD "" else "") = ""
        rcases eq_or_ne status 200 with h200 | h200
        · rw [if_pos h200]
          rcases h with h | h
          · exact absurd h200 h
          · rw [h]
            rfl
        · rw [if_neg h200]
  refine ⟨hempty, ?_, ?_⟩
  · intro sc d a secret
    rw [hempty]
    simp [runMatch]
  · intro llm secret d a rest j sc hllm
    rw [innerLoop, hllm, hempty]
    simp [runMatch]

/-- Witness for C5 at the transport exception failure mode. -/
theorem match_failure_recovery_wit :
    call_llm_proxy .exn = "" ∧
    (∀ sc d a secret, runMatch sc d a (call_llm_proxy .exn) secret = sc) ∧
    (∀ (llm secret : Nat → String) d a rest j sc, llm j = call_llm_proxy .exn →
      innerLoop d llm secret (a :: rest) j sc =
        innerLoop d llm secret rest (j + 1) sc) :=
  match_failure_recovery .exn (by decide)

/-- C10: a participant cap of 0 is falsy, so the truncation is skipped and the
whole roster is processed; any positive cap keeps exactly the first n rows. -/
theorem limit_zero_and_pos (l : List Student) :
    applyLimit l (some 0) = l ∧
    ∀ n : Int, 0 < n → applyLimit l (some n) = l.take n.toNat := by
  constructor
  · rfl
  · intro n hn
    show (if n = 0 then l else pySliceTo l n) = l.take n.toNat
    rw [if_neg (by omega)]
    unfold pySliceTo
    rw [if_pos (by omega)]

/-- Witness for C10 on a three element roster with caps 0 and 2. -/
theorem limit_zero_and_pos_wit :
    applyLimit [stuA, stuB, stuC] (some 0) = [stuA, stuB, stuC] ∧
    applyLimit [stuA, stuB, stuC] (some 2) = [stuA, stuB, stuC].take (2 : Int).toNat :=
  ⟨(limit_zero_and_pos [stuA, stuB, stuC]).1,
   (limit_zero_and_pos [stuA, stuB, stuC]).2 2 (by decide)⟩

/-- Under unique identities, the potential attacker list of a roster member
has exactly one entry fewer than the roster. -/
theorem length_potentialAttackers (students : List Student) (defender : Student)
    (hnodup : (students.map Student.email).Nodup) (hd : defender ∈ students) :
    (potentialAttackers students defender).length = students.length - 1 := by
  have h1 : (students.map Student.email).count defender.email = 1 :=
    List.count_eq_one_of_mem hnodup (List.mem_map_of_mem _ hd)
  rw [List.count, List.countP_map] at h1
  have h2 := List.length_eq_countP_add_countP
    (fun s => s.email == defender.email) students
  have h3 : (potentialAttackers students defender).length =
      students.countP (fun s => s.email != defender.email) := by
    rw [potentialAttackers, List.countP_eq_length_filter]
  have h4 : students.countP (fun s => s.email != defender.email) =
      students.countP (fun a => decide ¬(a.email == defender.email) = true) := by
    apply List.countP_congr
    intro a _
    simp [bne]
  have h5 : students.countP ((fun x => x == defender.email) ∘ Student.email) =
      students.countP (fun s => s.email == defender.email) := rfl
  rw [h3, h4]
  rw [h5] at h1
  omega

/-- C3: the opponents sampled for a defender never contain the defender, are
drawn from the roster minus the defender, contain no duplicate, and number
exactly min(requested, roster size - 1). The position list idx carries the
guarantees of the sampling library: distinct in range positions, as many as
the clamped count computed by the code. -/
theorem matchmaker_spec (students : List Student) (defender : Student)
    (num_opponents : Nat) (idx : List Nat)
    (hnodup : (students.map Student.email).Nodup)
    (hd : defender ∈ students)
    (hidx_nodup : idx.Nodup)
    (hidx_lt : ∀ i ∈ idx, i < (potentialAttackers students defender).length)
    (hidx_len : idx.length =
      min (potentialAttackers students defender).length num_opponents) :
    defender ∉ sampleModel (potentialAttackers students defender) idx ∧
    (∀ a ∈ sampleModel (potentialAttackers students defender) idx,
      a.email ≠ defender.email ∧ a ∈ potentialAttackers students defender) ∧
    (sampleModel (potentialAttackers students defender) idx).Nodup ∧
    (sampleModel (potentialAttackers students defender) idx).length
      = min num_opponents (students.length - 1) := by
  have hmem : ∀ a ∈ sampleModel (potentialAttackers students defender) idx,
      a ∈ potentialAttackers students defender := by
    intro a ha
    rcases List.mem_map.mp ha with ⟨i, hi, rfl⟩
    rw [List.getD_eq_getElem _ _ (hidx_lt i hi)]
    exact List.getElem_mem _
  have hne : ∀ a ∈ sampleModel (potentialAttackers students defender) idx,
      a.email ≠ defender.email := by
    intro a ha
    have h2 := List.mem_filter.mp (hmem a ha)
    simpa using h2.2
  refine ⟨fun hcon => hne defender hcon rfl, fun a ha => ⟨hne a ha, hmem a ha⟩, ?_, ?_⟩
  · have hstu : students.Nodup := List.Nodup.of_map _ hnodup
    have hpot : (potentialAttackers students defender).Nodup := hstu.filter _
    refine List.Nodup.map_on ?_ hidx_nodup
    intro i hi j hj hEq
    rw [List.getD_eq_getElem _ _ (hidx_lt i hi),
      List.getD_eq_getElem _ _ (hidx_lt j hj)] at hEq
    exact (List.Nodup.getElem_inj_iff hpot).mp hEq
  · simp only [sampleModel, List.length_map]
    rw [hidx_len, length_potentialAttackers students defender hnodup hd, Nat.min_comm]

/-- Witness for C3 on a three member roster sampling one opponent. -/
theorem matchmaker_spec_wit :
    stuA ∉ sampleModel (potentialAttackers [stuA, stuB, stuC] stuA) [1] ∧
    (∀ a ∈ sampleModel (potentialAttackers [stuA, stuB, stuC] stuA) [1],
      a.email ≠ stuA.email ∧ a ∈ potentialAttackers [stuA, stuB, stuC] stuA) ∧
    (sampleModel (potentialAttackers [stuA, stuB, stuC] stuA) [1]).Nodup ∧
    (sampleModel (potentialAttackers [stuA, stuB, stuC] stuA) [1]).length
      = min 1 ([stuA, stuB, stuC].length - 1) :=
  matchmaker_spec [stuA, stuB, stuC] stuA 1 [1] (by decide) (by decide) (by decide)
    (by decide) (by decide)

/-- Every key looked up on the initial board scores zero. -/
theorem getScore_init (students : List Student) (k : String) :
    getScore (initScores students) k = 0 := by
  induction students with
  | nil => rfl
  | cons s rest ih =>
      simp only [initScores, List.map_cons, getScore]
      rcases hb : (s.email == k) with _ | _
      · simpa [getScore, initScores, List.find?, hb] using ih
      · simp [List.find?, hb]

/-- The keys of the initial board are the roster emails, in roster order. -/
theorem keys_init (students : List Student) :
    keys (initScores students) = students.map Student.email := by
  simp only [keys, initScores, List.map_map]
  rfl

/-- The initial board sums to zero. -/
theorem total_init (students : List Student) : total (initScores students) = 0 := by
  induction students with
  | nil => rfl
  | cons s rest ih => simpa [total, initScores] using ih

/-- Incrementing never changes the key list. -/
theorem keys_bump (m : ScoreMap) (k : String) : keys (bump m k) = keys m := by
  induction m with
  | nil => rfl
  | cons p rest ih =>
      simp only [keys, bump, List.map_cons, List.cons.injEq] at *
      refine ⟨?_, ih⟩
      by_cases h : p.1 == k <;> simp [h]

/-- Incrementing an absent key is the identity. -/
theorem bump_not_mem (m : ScoreMap) (k : String) (hk : k ∉ keys m) : bump m k = m := by
  induction m with
  | nil => rfl
  | cons p rest ih =>
      simp only [keys, List.map_cons, List.mem_cons, not_or] at hk
      simp only [bump, List.map_cons, List.cons.injEq]
      constructor
      · rw [if_neg (by simpa using fun h => hk.1 h.symm)]
      · exact ih hk.2

/-- Incrementing a present key raises exactly that score by one. -/
theorem getScore_bump_self (m : ScoreMap) (k : String) (hk : k ∈ keys m) :
    getScore (bump m k) k = getScore m k + 1 := by
  induction m with
  | nil => simp [keys] at hk
  | cons p rest ih =>
      by_cases h : (p.1 == k) = true
      · simp [bump, getScore, List.find?, h]
      · have hk2 : k ∈ keys rest := by
          simp only [keys, List.map_cons, List.mem_cons] at hk
          rcases hk with hk | hk
          · exact absurd (by simp [hk]) h
          · exact hk
        simpa [bump, getScore, List.find?, h] using ih hk2

/-- Incrementing one key leaves every other score unchanged. -/
theorem getScore_bump_ne (m : ScoreMap) (w k : String) (hk : k ≠ w) :
    getScore (bump m w) k = getScore m k := by
  induction m with
  | nil => rfl
  | cons p rest ih =>
      by_cases h : (p.1 == k) = true
      · have hpw : (p.1 == w) = false := by
          simp only [beq_iff_eq] at h ⊢
          simp [h, hk]
        simp [bump, getScore, List.find?, h, hpw]
      · have hfst : (if p.1 == w then (p.1, p.2 + 1) else p).1 = p.1 := by
          by_cases hw : p.1 == w <;> simp [hw]
        simp only [bump, List.map_cons, getScore, List.find?, hfst, h]
        simpa [bump, getScore] using ih

/-- Scores never decrease under an increment, whatever the key. -/
theorem getScore_bump_mono (m : ScoreMap) (w k : String) :
    getScore m k ≤ getScore (bump m w) k := by
  by_cases hkw : k = w
  · subst hkw
    by_cases hk : k ∈ keys m
    · rw [getScore_bump_self m k hk]
      omega
    · rw [bump_not_mem m k hk]
  · rw [getScore_bump_ne m w k hkw]

/-- Under unique keys, incrementing a present key raises the board sum by one. -/
theorem total_bump (m : ScoreMap) (k : String) (hnodup : (keys m).Nodup)
    (hk : k ∈ keys m) : total (bump m k) = total m + 1 := by
  induction m with
  | nil => simp [keys] at hk
  | cons p rest ih =>
      simp only [keys, List.map_cons, List.nodup_cons] at hnodup
      by_cases h : (p.1 == k) = true
      · have hknot : k ∉ keys rest := by
          have := hnodup.1
          simp only [beq_iff_eq] at h
          rw [← h]
          exact this
        rw [show bump (p :: rest) k =
            (p.1, p.2 + 1) :: bump rest k by simp only [bump, List.map_cons, if_pos h]]
        rw [bump_not_mem rest k hknot]
        simp [total]
        omega
      · have hk2 : k ∈ keys rest := by
          simp only [keys, List.map_cons, List.mem_cons] at hk
          rcases hk with hk | hk
          · exact absurd (by simp [hk]) h
          · exact hk
        rw [show bump (p :: rest) k = p :: bump rest k by
          simp only [bump, List.map_cons, if_neg h]]
        simp only [total, List.map_cons, List.sum_cons] at *
        rw [ih hnodup.2 hk2]
        omega

/-- One match never changes the key list. -/
theorem keys_runMatch (sc : ScoreMap) (d a : Student) (o s : String) :
    keys (runMatch sc d a o s) = keys sc := by
  unfold runMatch
  by_cases h : o = ""
  · rw [if_pos h]
  · rw [if_neg h]
    by_cases hdet : detect o s
    · rw [if_pos hdet, keys_bump]
    · rw [if_neg hdet, keys_bump]

/-- One match raises the board sum by one exactly when it is not skipped. -/
theorem total_runMatch (sc : ScoreMap) (d a : Student) (o s : String)
    (hnodup : (keys sc).Nodup) (hd : d.email ∈ keys sc) (ha : a.email ∈ keys sc) :
    total (runMatch sc d a o s) = total sc + (if o = "" then 0 else 1) := by
  unfold runMatch
  by_cases h : o = ""
  · rw [if_pos h, if_pos h]
    omega
  · rw [if_neg h, if_neg h]
    by_cases hdet : detect o s
    · rw [if_pos hdet, total_bump sc a.email hnodup ha]
    · rw [if_neg hdet, total_bump sc d.email hnodup hd]

/-- The inner loop never changes the key list. -/
theorem keys_innerLoop (d : Student) (llm secret : Nat → String) (att : List Student) :
    ∀ j sc, keys (innerLoop d llm secret att j sc) = keys sc := by
  induction att with
  | nil => intro j sc; rfl
  | cons a rest ih =>
      intro j sc
      simp only [innerLoop]
      rw [ih (j + 1), keys_runMatch]

/-- The inner loop adds to the board sum one unit per non skipped match of the
round. -/
theorem total_innerLoop (d : Student) (llm secret : Nat → String) (att : List Student) :
    ∀ j sc, (keys sc).Nodup → d.email ∈ keys sc → (∀ a ∈ att, a.email ∈ keys sc) →
      total (innerLoop d llm secret att j sc)
        = total sc + ((innerRecords d llm att j).filter (fun r => r.2.2 != "")).length := by
  induction att with
  | nil => intro j sc _ _ _; simp [innerLoop, innerRecords]
  | cons a rest ih =>
      intro j sc hnd hd ha
      simp only [innerLoop, innerRecords]
      rw [ih (j + 1) _ (by rw [keys_runMatch]; exact hnd)
          (by rw [keys_runMatch]; exact hd)
          (by intro x hx; rw [keys_runMatch]; exact ha x (List.mem_cons_of_mem _ hx))]
      rw [total_runMatch sc d a (llm j) (secret j) hnd hd (ha a (List.mem_cons_self _ _))]
      by_cases h : llm j = ""
      · simp [List.filter_cons, h]
      · have hb : ((llm j) != "") = true := by simpa [bne] using h
        simp only [List.filter_cons, hb, if_pos, List.length_cons, if_neg h]
        omega

/-- The outer loop never changes the key list. -/
theorem keys_outerLoop (sample : Student → List Student → List Student)
    (llm secret : Nat → Nat → String) (students : List Student) :
    ∀ rem i sc, keys (outerLoop sample llm secret students rem i sc) = keys sc := by
  intro rem
  induction rem with
  | nil => intro i sc; rfl
  | cons d rest ih =>
      intro i sc
      simp only [outerLoop]
      rw [ih (i + 1), keys_innerLoop]

/-- The outer loop adds to the board sum one unit per non skipped match. -/
theorem total_outerLoop (sample : Student → List Student → List Student)
    (llm secret : Nat → Nat → String) (students : List Student)
    (hsample : ∀ d l, ∀ a ∈ sample d l, a ∈ l) :
    ∀ rem i sc, (keys sc).Nodup → keys sc = students.map Student.email →
      (∀ d ∈ rem, d ∈ students) →
      total (outerLoop sample llm secret students rem i sc)
        = total sc + ((outerRecords sample llm students rem i).filter
            (fun r => r.2.2 != "")).length := by
  intro rem
  induction rem with
  | nil => intro i sc _ _ _; simp [outerLoop, outerRecords]
  | cons d rest ih =>
      intro i sc hnd hkeys hrem
      simp only [outerLoop, outerRecords]
      rw [ih (i + 1) _ (by rw [keys_innerLoop]; exact hnd)
          (by rw [keys_innerLoop]; exact hkeys)
          (fun x hx => hrem x (List.mem_cons_of_mem _ hx))]
      rw [total_innerLoop d (llm i) (secret i) _ 0 sc hnd
          (by rw [hkeys]; exact List.mem_map_of_mem _ (hrem d (List.mem_cons_self _ _)))
          (by
            intro a hane
            have hmem := hsample d _ a hane
            have h2 : a ∈ students := List.mem_of_mem_filter hmem
            rw [hkeys]
            exact List.mem_map_of_mem _ h2)]
      rw [List.filter_append, List.length_append]
      omega

/-- C2: the board starts at zero for every participant; one match never
decrements any score, and either is skipped and changes nothing or increments
exactly one present key by exactly one, the attacker on a leak and the
defender otherwise; and over a whole run the board sum equals the number of
non skipped matches. -/
theorem scoreboard_invariant
    (sample : Student → List Student → List Student)
    (llm secret : Nat → Nat → String) (students : List Student)
    (hnodup : (students.map Student.email).Nodup)
    (hsample : ∀ d l, ∀ a ∈ sample d l, a ∈ l) :
    (∀ s ∈ students, getScore (initScores students) s.email = 0) ∧
    (∀ sc d a out sec k, getScore sc k ≤ getScore (runMatch sc d a out sec) k) ∧
    (∀ sc d a out sec, (out = "" ∧ runMatch sc d a out sec = sc) ∨
      (out ≠ "" ∧ runMatch sc d a out sec
        = bump sc (if detect out sec then a.email else d.email))) ∧
    (∀ m w, w ∈ keys m → getScore (bump m w) w = getScore m w + 1) ∧
    (∀ m w k, k ≠ w → getScore (bump m w) k = getScore m k) ∧
    (∀ k, getScore (initScores students) k
        ≤ getScore (runTournament sample llm secret students) k) ∧
    total (runTournament sample llm secret students)
      = nonSkippedCount sample llm students := by
  refine ⟨fun s _ => getScore_init students s.email, ?_, ?_,
    fun m w hw => getScore_bump_self m w hw,
    fun m w k hk => getScore_bump_ne m w k hk, ?_, ?_⟩
  · intro sc d a out sec k
    unfold runMatch
    by_cases h : out = ""
    · rw [if_pos h]
    · rw [if_neg h]
      by_cases hdet : detect out sec
      · rw [if_pos hdet]
        exact getScore_bump_mono sc a.email k
      · rw [if_neg hdet]
        exact getScore_bump_mono sc d.email k
  · intro sc d a out sec
    by_cases h : out = ""
    · exact Or.inl ⟨h, by simp [runMatch, h]⟩
    · refine Or.inr ⟨h, ?_⟩
      by_cases hdet : detect out sec <;> simp [runMatch, h, hdet]
  · intro k
    rw [getScore_init]
    omega
  · unfold runTournament nonSkippedCount matchRecords
    rw [total_outerLoop sample llm secret students hsample students 0
        (initScores students)
        (by rw [keys_init]; exact hnodup)
        (keys_init students)
        (fun d hd => hd),
      total_init]
    omega

/-- Witness for C2 on a two member roster where every match resolves. -/
theorem scoreboard_invariant_wit :
    (∀ s ∈ [stuA, stuB], getScore (initScores [stuA, stuB]) s.email = 0) ∧
    (∀ sc d a out sec k, getScore sc k ≤ getScore (runMatch sc d a out sec) k) ∧
    (∀ sc d a out sec, (out = "" ∧ runMatch sc d a out sec = sc) ∨
      (out ≠ "" ∧ runMatch sc d a out sec
        = bump sc (if detect out sec then a.email else d.email))) ∧
    (∀ m w, w ∈ keys m → getScore (bump m w) w = getScore m w + 1) ∧
    (∀ m w k, k ≠ w → getScore (bump m w) k = getScore m k) ∧
    (∀ k, getScore (initScores [stuA, stuB]) k
        ≤ getScore (runTournament (fun _ l => l) (fun _ _ => "x")
            (fun _ _ => "s") [stuA, stuB]) k) ∧
    total (runTournament (fun _ l => l) (fun _ _ => "x") (fun _ _ => "s") [stuA, stuB])
      = nonSkippedCount (fun _ l => l) (fun _ _ => "x") [stuA, stuB] :=
  scoreboard_invariant (fun _ l => l) (fun _ _ => "x") (fun _ _ => "s") [stuA, stuB]
    (by decide) (fun _ _ _ h => h)

/-- Transitivity of the descending comparison of the final sort. -/
theorem leaderboard_le_trans (a b c : String × Nat)
    (hab : decide (b.2 ≤ a.2) = true) (hbc : decide (c.2 ≤ b.2) = true) :
    decide (c.2 ≤ a.2) = true := by
  simp only [decide_eq_true_eq] at *
  omega

/-- Totality of the descending comparison of the final sort. -/
theorem leaderboard_le_total (a b : String × Nat) :
    (decide (b.2 ≤ a.2) || decide (a.2 ≤ b.2)) = true := by
  simp only [Bool.or_eq_true, decide_eq_true_eq]
  omega

/-- On a board with unique keys, a member entry carries the looked up score of
its key. -/
theorem snd_eq_getScore_of_mem (m : ScoreMap) (p : String × Nat)
    (hnodup : (keys m).Nodup) (hp : p ∈ m) : p.2 = getScore m p.1 := by
  induction m with
  | nil => cases hp
  | cons q rest ih =>
      simp only [keys, List.map_cons, List.nodup_cons] at hnodup
      rcases List.mem_cons.mp hp with rfl | hp2
      · simp [getScore, List.find?]
      · have hmem : p.1 ∈ List.map Prod.fst rest := List.mem_map_of_mem _ hp2
        have hq : (q.1 == p.1) = false := by
          rw [beq_eq_false_iff_ne]
          intro hEq
          exact hnodup.1 (hEq ▸ hmem)
        simp only [getScore, List.find?, hq]
        exact ih hnodup.2 hp2

/-- Every present key appears on the board together with its looked up score. -/
theorem getScore_mem (m : ScoreMap) (k : String) (hk : k ∈ keys m) :
    (k, getScore m k) ∈ m := by
  induction m with
  | nil => simp [keys] at hk
  | cons q rest ih =>
      by_cases h : (q.1 == k) = true
      · have hq1 : q.1 = k := by simpa using h
        have hgs : getScore (q :: rest) k = q.2 := by simp [getScore, List.find?, h]
        rw [hgs]
        exact List.mem_cons.mpr (Or.inl (by rw [← hq1]))
      · have hk2 : k ∈ keys rest := by
          simp only [keys, List.map_cons, List.mem_cons] at hk
          rcases hk with hk | hk
          · exact absurd (by simp [hk]) h
          · exact hk
        have hgs : getScore (q :: rest) k = getScore rest k := by
          simp [getScore, List.find?, h]
        rw [hgs]
        exact List.mem_cons_of_mem _ (ih hk2)

/-- A key that is party only to skipped matches of a round keeps its score
through the inner loop. -/
theorem getScore_innerLoop_untouched (d : Student) (llm secret : Nat → String)
    (att : List Student) (k : String) :
    ∀ j sc,
      (∀ r ∈ innerRecords d llm att j, r.1.email = k ∨ r.2.1.email = k → r.2.2 = "") →
      getScore (innerLoop d llm secret att j sc) k = getScore sc k := by
  induction att with
  | nil => intro j sc _; rfl
  | cons a rest ih =>
      intro j sc h
      simp only [innerRecords] at h
      simp only [innerLoop]
      rw [ih (j + 1) _ (fun r hr => h r (List.mem_cons_of_mem _ hr))]
      by_cases hout : llm j = ""
      · simp [runMatch, hout]
      · have hhead := h (d, a, llm j) (List.mem_cons_self _ _)
        have hdk : d.email ≠ k := fun hc => hout (hhead (Or.inl hc))
        have hak : a.email ≠ k := fun hc => hout (hhead (Or.inr hc))
        simp only [runMatch, if_neg hout]
        by_cases hdet : detect (llm j) (secret j)
        · rw [if_pos hdet, getScore_bump_ne _ _ _ (fun hc => hak hc.symm)]
        · rw [if_neg hdet, getScore_bump_ne _ _ _ (fun hc => hdk hc.symm)]

/-- A key that is party only to skipped matches of the run keeps its score
through the outer loop. -/
theorem getScore_outerLoop_untouched (sample : Student → List Student → List Student)
    (llm secret : Nat → Nat → String) (students : List Student) (k : String) :
    ∀ rem i sc,
      (∀ r ∈ outerRecords sample llm students rem i,
        r.1.email = k ∨ r.2.1.email = k → r.2.2 = "") →
      getScore (outerLoop sample llm secret students rem i sc) k = getScore sc k := by
  intro rem
  induction rem with
  | nil => intro i sc _; rfl
  | cons d rest ih =>
      intro i sc h
      simp only [outerRecords] at h
      simp only [outerLoop]
      rw [ih (i + 1) _ (fun r hr => h r (List.mem_append_right _ hr))]
      exact getScore_innerLoop_untouched d (llm i) (secret i) _ k 0 sc
        (fun r hr => h r (List.mem_append_left _ hr))

/-- The keys of the final board are the roster emails, in roster order. -/
theorem keys_runTournament (sample : Student → List Student → List Student)
    (llm secret : Nat → Nat → String) (students : List Student) :
    keys (runTournament sample llm secret students) = students.map Student.email := by
  unfold runTournament
  rw [keys_outerLoop, keys_init]

/-- C8: the leaderboard is the final board itself reordered (a permutation:
the board is read, not mutated), sorted by score descending, with an entry
for every participant of the possibly limited roster; a participant all of
whose matches were skipped still appears, with score zero. -/
theorem leaderboard_spec
    (sample : Student → List Student → List Student)
    (llm secret : Nat → Nat → String) (rows : List Student) (limit : Option Int)
    (students : List Student) (hstu : students = applyLimit rows limit) :
    List.Pairwise (fun x y : String × Nat => y.2 ≤ x.2)
      (leaderboard (runTournament sample llm secret students)) ∧
    (leaderboard (runTournament sample llm secret students)).Perm
      (runTournament sample llm secret students) ∧
    (∀ s ∈ students,
      (s.email, getScore (runTournament sample llm secret students) s.email)
        ∈ leaderboard (runTournament sample llm secret students)) ∧
    (∀ s ∈ students,
      (∀ r ∈ matchRecords sample llm students,
        r.1.email = s.email ∨ r.2.1.email = s.email → r.2.2 = "") →
      (s.email, 0) ∈ leaderboard (runTournament sample llm secret students)) := by
  refine ⟨?_, List.mergeSort_perm _ _, ?_, ?_⟩
  · exact (List.sorted_mergeSort leaderboard_le_trans leaderboard_le_total
      (runTournament sample llm secret students)).imp (fun h => of_decide_eq_true h)
  · intro s hs
    have hk : s.email ∈ keys (runTournament sample llm secret students) := by
      rw [keys_runTournament]
      exact List.mem_map_of_mem _ hs
    exact ((List.mergeSort_perm _ _).mem_iff).mpr (getScore_mem _ _ hk)
  · intro s hs hskip
    simp only [matchRecords] at hskip
    have h0 : getScore (runTournament sample llm secret students) s.email = 0 := by
      unfold runTournament
      rw [getScore_outerLoop_untouched sample llm secret students s.email
        students 0 _ hskip, getScore_init]
    have hk : s.email ∈ keys (runTournament sample llm secret students) := by
      rw [keys_runTournament]
      exact List.mem_map_of_mem _ hs
    have hmem := getScore_mem _ _ hk
    rw [h0] at hmem
    exact ((List.mergeSort_perm _ _).mem_iff).mpr hmem

/-- Witness for C8 on a run of two participants where every match is skipped. -/
theorem leaderboard_spec_wit :
    List.Pairwise (fun x y : String × Nat => y.2 ≤ x.2)
      (leaderboard (runTournament (fun _ l => l) (fun _ _ => "")
        (fun _ _ => "s") [stuA, stuB])) ∧
    (leaderboard (runTournament (fun _ l => l) (fun _ _ => "")
        (fun _ _ => "s") [stuA, stuB])).Perm
      (runTournament (fun _ l => l) (fun _ _ => "") (fun _ _ => "s") [stuA, stuB]) ∧
    (∀ s ∈ [stuA, stuB],
      (s.email, getScore (runTournament (fun _ l => l) (fun _ _ => "")
          (fun _ _ => "s") [stuA, stuB]) s.email)
        ∈ leaderboard (runTournament (fun _ l => l) (fun _ _ => "")
            (fun _ _ => "s") [stuA, stuB])) ∧
    (∀ s ∈ [stuA, stuB],
      (∀ r ∈ matchRecords (fun _ l => l) (fun _ _ => "") [stuA, stuB],
        r.1.email = s.email ∨ r.2.1.email = s.email → r.2.2 = "") →
      (s.email, 0) ∈ leaderboard (runTournament (fun _ l => l) (fun _ _ => "")
          (fun _ _ => "s") [stuA, stuB])) :=
  leaderboard_spec (fun _ l => l) (fun _ _ => "") (fun _ _ => "s")
    [stuA, stuB] none [stuA, stuB] rfl

/-- C9: two roster members with equal final scores appear on the leaderboard
in roster order, because the board preserves roster order and the descending
sort is stable. -/
theorem tiebreak_stable
    (sample : Student → List Student → List Student)
    (llm secret : Nat → Nat → String) (students : List Student)
    (s1 s2 : Student)
    (hnodup : (students.map Student.email).Nodup)
    (hsub : List.Sublist [s1, s2] students)
    (heq : getScore (runTournament sample llm secret students) s1.email
         = getScore (runTournament sample llm secret students) s2.email) :
    List.Sublist
      [(s1.email, getScore (runTournament sample llm secret students) s1.email),
       (s2.email, getScore (runTournament sample llm secret students) s2.email)]
      (leaderboard (runTournament sample llm secret students)) := by
  have hnkeys : (keys (runTournament sample llm secret students)).Nodup := by
    rw [keys_runTournament]
    exact hnodup
  have hmapsub : List.Sublist [s1.email, s2.email]
      ((runTournament sample llm secret students).map Prod.fst) := by
    rw [show (runTournament sample llm secret students).map Prod.fst
        = keys (runTournament sample llm secret students) from rfl,
      keys_runTournament]
    exact List.Sublist.map Student.email hsub
  rcases List.sublist_map_iff.mp hmapsub with ⟨l2, hl2sub, hl2eq⟩
  have hlen : l2.length = 2 := by
    have hc := congrArg List.length hl2eq
    simpa using hc.symm
  rcases List.length_eq_two.mp hlen with ⟨p1, p2, rfl⟩
  simp only [List.map_cons, List.map_nil, List.cons.injEq, and_true] at hl2eq
  have h11 : p1.1 = s1.email := hl2eq.1.symm
  have h21 : p2.1 = s2.email := hl2eq.2.symm
  have hp1mem : p1 ∈ runTournament sample llm secret students :=
    hl2sub.subset (by simp)
  have hp2mem : p2 ∈ runTournament sample llm secret students :=
    hl2sub.subset (by simp)
  have h12 : p1.2 = getScore (runTournament sample llm secret students) s1.email := by
    rw [← h11]
    exact snd_eq_getScore_of_mem _ _ hnkeys hp1mem
  have h22 : p2.2 = getScore (runTournament sample llm secret students) s2.email := by
    rw [← h21]
    exact snd_eq_getScore_of_mem _ _ hnkeys hp2mem
  have hpair : List.Pairwise
      (fun a b : String × Nat => decide (b.2 ≤ a.2) = true) [p1, p2] := by
    constructor
    · intro b hb
      rw [List.mem_singleton] at hb
      subst hb
      rw [decide_eq_true_eq, h22, h12, heq]
    · constructor
      · intro b hb
        cases hb
      · exact List.Pairwise.nil
  have hstable := List.sublist_mergeSort leaderboard_le_trans leaderboard_le_total
    hpair hl2sub
  rw [show (s1.email, getScore (runTournament sample llm secret students) s1.email)
      = p1 from by rw [← h12, ← h11],
    show (s2.email, getScore (runTournament sample llm secret students) s2.email)
      = p2 from by rw [← h22, ← h21]]
  exact hstable

/-- Witness for C9 on a two member roster whose matches are all skipped, so
both participants tie at zero. -/
theorem tiebreak_stable_wit :
    List.Sublist
      [(stuA.email, getScore (runTournament (fun _ l => l) (fun _ _ => "")
        (fun _ _ => "s") [stuA, stuB]) stuA.email),
     (stuB.email, getScore (runTournament (fun _ l => l) (fun _ _ => "")
        (fun _ _ => "s") [stuA, stuB]) stuB.email)]
      (leaderboard (runTournament (fun _ l => l) (fun _ _ => "")
        (fun _ _ => "s") [stuA, stuB])) :=
  tiebreak_stable (fun _ l => l) (fun _ _ => "") (fun _ _ => "s") [stuA, stuB]
    stuA stuB (by decide) (by decide) (by decide)

/-- With a present token the guarded proxy call returns the plain one. -/
theorem call_llm_proxyTok_present (token : Option String)
    (h : tokenMissing token = false) (r : InvocationResult) :
    call_llm_proxyTok token r = .ok (call_llm_proxy r) := by
  simp [call_llm_proxyTok, h]

/-- With a present token the guarded inner loop is the pure inner loop. -/
theorem innerLoopE_present (token : Option String) (h : tokenMissing token = false)
    (d : Student) (resp : Nat → InvocationResult) (secret : Nat → String) :
    ∀ att j sc, innerLoopE token d resp secret att j sc
      = .ok (innerLoop d (fun j2 => call_llm_proxy (resp j2)) secret att j sc) := by
  intro att
  induction att with
  | nil => intro j sc; rfl
  | cons a rest ih =>
      intro j sc
      simp only [innerLoopE, innerLoop, runMatchE, call_llm_proxyTok_present token h]
      exact ih (j + 1) _

/-- With a present token the guarded outer loop is the pure outer loop. -/
theorem outerLoopE_present (token : Option String) (h : tokenMissing token = false)
    (sample : Student → List Student → List Student)
    (resp : Nat → Nat → InvocationResult) (secret : Nat → Nat → String)
    (students : List Student) :
    ∀ rem i sc, outerLoopE token sample resp secret students rem i sc
      = .ok (outerLoop sample (fun i2 j2 => call_llm_proxy (resp i2 j2))
          secret students rem i sc) := by
  intro rem
  induction rem with
  | nil => intro i sc; rfl
  | cons d rest ih =>
      intro i sc
      simp only [outerLoopE, outerLoop, innerLoopE_present token h]
      exact ih (i + 1) _

/-- With a present token the engine with exits made explicit agrees with the
pure tournament loop, run on the strings the proxy call returns. -/
theorem runTournamentE_present (token : Option String)
    (h : tokenMissing token = false)
    (sample : Student → List Student → List Student)
    (resp : Nat → Nat → InvocationResult) (secret : Nat → Nat → String)
    (students : List Student) :
    runTournamentE token sample resp secret students
      = .ok (runTournament sample (fun i j => call_llm_proxy (resp i j))
          secret students) :=
  outerLoopE_present token h sample resp secret students students 0 _

/-- With a missing token a round with at least one sampled opponent exits. -/
theorem innerLoopE_missing (token : Option String) (h : tokenMissing token = true)
    (d : Student) (resp : Nat → InvocationResult) (secret : Nat → String) :
    ∀ att j sc, att ≠ [] → innerLoopE token d resp secret att j sc = .error 1 := by
  intro att
  cases att with
  | nil => intro j sc hne; exact absurd rfl hne
  | cons a rest =>
      intro j sc _
      simp [innerLoopE, runMatchE, call_llm_proxyTok, h]

/-- With a missing token the outer loop completes when no opponents are ever
sampled and exits with code 1 otherwise. -/
theorem outerLoopE_missing (token : Option String) (h : tokenMissing token = true)
    (sample : Student → List Student → List Student)
    (resp : Nat → Nat → InvocationResult) (secret : Nat → Nat → String)
    (students : List Student) :
    ∀ rem i sc,
      ((∀ d ∈ rem, sample d (potentialAttackers students d) = []) →
        outerLoopE token sample resp secret students rem i sc = .ok sc) ∧
      ((∃ d ∈ rem, sample d (potentialAttackers students d) ≠ []) →
        outerLoopE token sample resp secret students rem i sc = .error 1) := by
  intro rem
  induction rem with
  | nil =>
      intro i sc
      refine ⟨fun _ => rfl, ?_⟩
      rintro ⟨d, hd, _⟩
      cases hd
  | cons d rest ih =>
      intro i sc
      constructor
      · intro hall
        have hhead : sample d (potentialAttackers students d) = [] :=
          hall d (List.mem_cons_self _ _)
        simp only [outerLoopE, hhead, innerLoopE]
        exact (ih (i + 1) sc).1 (fun x hx => hall x (List.mem_cons_of_mem _ hx))
      · rintro ⟨d2, hd2, hne⟩
        by_cases hhead : sample d (potentialAttackers students d) = []
        · rcases List.mem_cons.mp hd2 with rfl | hd2r
          · exact absurd hhead hne
          · simp only [outerLoopE, hhead, innerLoopE]
            exact (ih (i + 1) sc).2 ⟨d2, hd2r, hne⟩
        · have herr := innerLoopE_missing token h d (resp i) (secret i)
            (sample d (potentialAttackers students d)) 0 sc hhead
          simp only [outerLoopE, herr]

/-- C6 amended: when the access token is absent or empty the process exits
with code 1 exactly when the run attempts at least one match, because the
check sits inside the first model invocation; a run whose matchmaking yields
no match at all completes normally and prints the all zero leaderboard
despite the missing credential. -/
theorem missing_token_behavior (input_file : String) (rows : List Student)
    (limit : Option Int) (token : Option String)
    (sample : Student → List Student → List Student)
    (resp : Nat → Nat → InvocationResult) (secret : Nat → Nat → String)
    (h : tokenMissing token = true) :
    (evaluate_submissions true input_file rows limit token sample resp secret
        = .exited 1 ↔
      ∃ d ∈ applyLimit rows limit,
        sample d (potentialAttackers (applyLimit rows limit) d) ≠ []) ∧
    ((∀ d ∈ applyLimit rows limit,
        sample d (potentialAttackers (applyLimit rows limit) d) = []) →
      evaluate_submissions true input_file rows limit token sample resp secret
        = .completed (leaderboard (initScores (applyLimit rows limit)))) := by
  have hout := outerLoopE_missing token h sample resp secret (applyLimit rows limit)
    (applyLimit rows limit) 0 (initScores (applyLimit rows limit))
  by_cases hc : ∀ d ∈ applyLimit rows limit,
      sample d (potentialAttackers (applyLimit rows limit) d) = []
  · have heval : evaluate_submissions true input_file rows limit token sample resp secret
        = .completed (leaderboard (initScores (applyLimit rows limit))) := by
      show (match runTournamentE token sample resp secret (applyLimit rows limit) with
        | .error c => RunResult.exited c
        | .ok m => RunResult.completed (leaderboard m)) =
        .completed (leaderboard (initScores (applyLimit rows limit)))
      rw [show runTournamentE token sample resp secret (applyLimit rows limit)
          = .ok (initScores (applyLimit rows limit)) from hout.1 hc]
    refine ⟨⟨fun hexit => ?_, fun hex => ?_⟩, fun _ => heval⟩
    · rw [heval] at hexit
      cases hexit
    · rcases hex with ⟨d, hd, hne⟩
      exact absurd (hc d hd) hne
  · push_neg at hc
    rcases hc with ⟨d, hd, hne⟩
    have heval : evaluate_submissions true input_file rows limit token sample resp secret
        = .exited 1 := by
      show (match runTournamentE token sample resp secret (applyLimit rows limit) with
        | .error c => RunResult.exited c
        | .ok m => RunResult.completed (leaderboard m)) = .exited 1
      rw [show runTournamentE token sample resp secret (applyLimit rows limit)
          = .error 1 from hout.2 ⟨d, hd, hne⟩]
    refine ⟨⟨fun _ => ⟨d, hd, hne⟩, fun _ => heval⟩, fun hall => ?_⟩
    exact absurd (hall d hd) hne

/-- Witness for the amended C6 on a two member roster with one opponent each:
the missing token run exits with code 1. -/
theorem missing_token_behavior_wit :
    (evaluate_submissions true "data/submissions.csv" [stuA, stuB] none none
        (fun _ l => l) (fun _ _ => .exn) (fun _ _ => "") = .exited 1 ↔
      ∃ d ∈ applyLimit [stuA, stuB] none,
        (fun (_ : Student) (l : List Student) => l) d
          (potentialAttackers (applyLimit [stuA, stuB] none) d) ≠ []) ∧
    ((∀ d ∈ applyLimit [stuA, stuB] none,
        (fun (_ : Student) (l : List Student) => l) d
          (potentialAttackers (applyLimit [stuA, stuB] none) d) = []) →
      evaluate_submissions true "data/submissions.csv" [stuA, stuB] none none
          (fun _ l => l) (fun _ _ => .exn) (fun _ _ => "")
        = .completed (leaderboard (initScores (applyLimit [stuA, stuB] none)))) :=
  missing_token_behavior "data/submissions.csv" [stuA, stuB] none none
    (fun _ l => l) (fun _ _ => .exn) (fun _ _ => "") rfl

/-- Counterexample to C6 as stated: with the token absent and a single
participant roster, the process does not abort at all: it completes
normally, prints the full zero score leaderboard and exits with code 0. -/
theorem missing_token_cex :
    evaluate_submissions true "data/submissions.csv" [stuA] none none
      (fun _ l => l) (fun _ _ => .exn) (fun _ _ => "") =
      .completed [(stuA.email, 0)] ∧
    exitCode (evaluate_submissions true "data/submissions.csv" [stuA] none none
      (fun _ l => l) (fun _ _ => .exn) (fun _ _ => "")) = 0 := by
  have h1 : leaderboard (initScores [stuA]) = [(stuA.email, 0)] :=
    List.mergeSort_of_sorted (by simp [initScores])
  constructor
  · show RunResult.completed (leaderboard (initScores [stuA]))
      = .completed [(stuA.email, 0)]
    rw [h1]
  · rfl

/-- C7 amended: on a missing input file evaluate_submissions prints one
diagnostic that carries the path and returns before any match is run; main
then falls off its end, so the process exits normally with code 0 instead of
aborting. -/
theorem missing_file_behavior (input_file : String) (rows : List Student)
    (limit : Option Int) (token : Option String)
    (sample : Student → List Student → List Student)
    (resp : Nat → Nat → InvocationResult) (secret : Nat → Nat → String) :
    evaluate_submissions false input_file rows limit token sample resp secret
      = .missingFile (missingFileDiag input_file) ∧
    exitCode (evaluate_submissions false input_file rows limit token
      sample resp secret) = 0 ∧
    input_file.toList <:+: (missingFileDiag input_file).toList := by
  refine ⟨rfl, rfl, ⟨"Error: Input file \x27".toList, "\x27 not found.".toList, ?_⟩⟩
  show "Error: Input file \x27".toList ++ input_file.toList ++ "\x27 not found.".toList
    = (missingFileDiag input_file).toList
  simp [missingFileDiag, String.toList]

/-- Counterexample to C7 as stated: a run on a missing input file prints the
diagnostic, runs no match, and still exits with code 0, which the claim
reserved for normal completion. -/
theorem missing_file_cex :
    evaluate_submissions false "data/submissions.csv" [stuA, stuB] none (some "tok")
      (fun _ l => l) (fun _ _ => .exn) (fun _ _ => "") =
      .missingFile (missingFileDiag "data/submissions.csv") ∧
    exitCode (evaluate_submissions false "data/submissions.csv" [stuA, stuB] none
      (some "tok") (fun _ l => l) (fun _ _ => .exn) (fun _ _ => "")) = 0 :=
  ⟨rfl, rfl⟩

end Grader
